import Mathlib

/-!
Shallow embedding of the neomt3 event-codec and run-length-encoding layer.

The Python modules `neomt3/event_codec.py`, `neomt3/vocabularies.py` and
`neomt3/run_length_encoding.py` are translated into executable Lean
definitions.  Python integers become `Int`, token sequences become
`List Int`, fallible calls (those that can raise `ValueError`, `KeyError`
or `AttributeError`) return `Except String`.  Two operations that the
repository's own test-suite exercises (`remove_redundant_state_changes_fn`
and `merge_run_length_encoded_targets`) are absent from the source tree;
those are modelled from the specification and are marked as such in their
doc comments.
-/

namespace NeoMT3

/-- `Event` from `event_codec.py`: a typed, valued musical occurrence. -/
structure Event where
  type : String
  value : Int
deriving Repr, DecidableEq

/-- `EventRange` from `event_codec.py`: min/max of a type's value range. -/
structure EventRange where
  min_value : Int
  max_value : Int
deriving Repr, DecidableEq

/-- `EventRange.__post_init__`: construction fails when `min_value > max_value`. -/
def EventRange.make (mn mx : Int) : Except String EventRange :=
  if mn > mx then
    Except.error ("min_value (" ++ toString mn ++ ") must be less than or equal to max_value (" ++ toString mx ++ ")")
  else
    Except.ok ⟨mn, mx⟩

/-- The raw state of a `Codec` object: the two fields the constructor stores
verbatim (`event_types`, in registration order, and the type → (min, max)
dictionary, modelled as an association list). -/
structure Codec where
  event_types : List String
  event_ranges : List (String × (Int × Int))
deriving Repr, DecidableEq

/-- The cumulative-size loop of `Codec.__init__`: sums `max - min + 1` over the
registered event types; a type missing from the range dictionary raises
`KeyError`.  This is the only way `Codec.__init__` can fail. -/
def sumSizes (ranges : List (String × (Int × Int))) : List String → Except String Int
  | [] => Except.ok 0
  | et :: rest =>
    match ranges.lookup et with
    | none => Except.error ("KeyError: " ++ et)
    | some (mn, mx) =>
      match sumSizes ranges rest with
      | Except.error msg => Except.error msg
      | Except.ok acc => Except.ok ((mx - mn + 1) + acc)

/-- `Codec.__init__` as a fallible constructor: runs the cumulative-size loop
(which may raise `KeyError`) and stores the inputs.  Note that, unlike
`EventRange`, `Codec.__init__` performs no range validation. -/
def Codec.make (ets : List String) (ranges : List (String × (Int × Int))) : Except String Codec :=
  match sumSizes ranges ets with
  | Except.error msg => Except.error msg
  | Except.ok _ => Except.ok ⟨ets, ranges⟩

/-- `self.num_classes` as computed by `Codec.__init__`:
`current_offset + num_special_tokens` with `num_special_tokens = 3`. -/
def Codec.num_classes (c : Codec) : Except String Int :=
  match sumSizes c.event_ranges c.event_types with
  | Except.error msg => Except.error msg
  | Except.ok total => Except.ok (total + 3)

/-- The offset loop of `Codec.encode_event`: starting after the 3 special
tokens, adds `max - min + 1` for each registered type preceding the event's
type (scanning `event_types` in order and stopping at the first match). -/
def encodeOffset (ranges : List (String × (Int × Int))) (target : String) : List String → Except String Int
  | [] => Except.ok 0
  | et :: rest =>
    if et = target then Except.ok 0
    else
      match ranges.lookup et with
      | none => Except.error ("KeyError: " ++ et)
      | some (mn, mx) =>
        match encodeOffset ranges target rest with
        | Except.error msg => Except.error msg
        | Except.ok o => Except.ok ((mx - mn + 1) + o)

/-- `Codec.encode_event`: raises `ValueError` for an unregistered type,
otherwise returns `num_special_tokens + cumulative offset + event.value`
(the value is used directly, not reduced by the type's `min_value`). -/
def Codec.encode_event (c : Codec) (ev : Event) : Except String Int :=
  if ev.type ∈ c.event_types then
    match encodeOffset c.event_ranges ev.type c.event_types with
    | Except.error msg => Except.error msg
    | Except.ok o => Except.ok (3 + o + ev.value)
  else
    Except.error ("Unknown event type: " ++ ev.type)

/-- The scanning loop of `Codec.decode_event`: walks the registered types in
order, accumulating window sizes from `cur`; the first window containing the
token yields `Event(type, token - window_start + min_value)`. -/
def decodeLoop (ranges : List (String × (Int × Int))) (token : Int) : Int → List String → Except String (Option Event)
  | _, [] => Except.ok none
  | cur, et :: rest =>
    match ranges.lookup et with
    | none => Except.error ("KeyError: " ++ et)
    | some (mn, mx) =>
      if token < cur + (mx - mn + 1) then
        Except.ok (some ⟨et, token - cur + mn⟩)
      else
        decodeLoop ranges token (cur + (mx - mn + 1)) rest

/-- `Codec.decode_event`: special tokens (`token < 3`) decode to `None`;
otherwise the scanning loop runs starting at `cur = 3`; a token beyond every
window also yields `None`. -/
def Codec.decode_event (c : Codec) (token : Int) : Except String (Option Event) :=
  if token < 3 then Except.ok none
  else decodeLoop c.event_ranges token 3 c.event_types

/-- `Codec.event_type_range`: raises `ValueError` for an unregistered type,
otherwise returns the `(min, max)` entry of the range dictionary verbatim. -/
def Codec.event_type_range (c : Codec) (et : String) : Except String (Int × Int) :=
  if et ∈ c.event_types then
    match c.event_ranges.lookup et with
    | none => Except.error ("KeyError: " ++ et)
    | some r => Except.ok r
  else
    Except.error ("Unknown event type: " ++ et)

/-- `VocabularyConfig` from `vocabularies.py`. -/
structure VocabularyConfig where
  num_velocity_bins : Int := 32
  onsets_only : Bool := false
  include_ties : Bool := true
deriving Repr, DecidableEq

/-- `build_codec` from `vocabularies.py`: `note` always, `velocity`/`program`
unless `onsets_only`, `tie` iff `include_ties`; the range dictionary always
carries all four entries.  `Codec.__init__` cannot fail here (every
registered type has a dictionary entry), so the codec is returned directly. -/
def build_codec (cfg : VocabularyConfig) : Codec :=
  { event_types :=
      ["note"] ++ (if cfg.onsets_only then [] else ["velocity", "program"])
        ++ (if cfg.include_ties then ["tie"] else []),
    event_ranges :=
      [("note", (0, 127)),
       ("velocity", (0, cfg.num_velocity_bins - 1)),
       ("program", (0, 127)),
       ("tie", (0, 0))] }

/-- Python attribute lookup on a `Codec` instance, restricted to the integer
attributes `Codec.__init__` assigns (`pad_token = 0`, `sos_token = 1`,
`eos_token = 2`, `num_special_tokens = 3`, `num_classes`).  Any other
attribute name raises `AttributeError`. -/
def Codec.getAttrInt (c : Codec) (name : String) : Except String Int :=
  if name = "pad_token" then Except.ok 0
  else if name = "sos_token" then Except.ok 1
  else if name = "eos_token" then Except.ok 2
  else if name = "num_special_tokens" then Except.ok 3
  else if name = "num_classes" then c.num_classes
  else Except.error ("AttributeError: " ++ name)

/-- `vocabulary_from_codec` from `vocabularies.py`: builds the summary
dictionary `{vocab_size, eos_id, pad_id, unk_id}` by reading
`codec.num_classes`, `codec.eos_id`, `codec.pad_id` and `codec.unk_id`,
in that order (Python evaluates the dict literal left to right). -/
def vocabulary_from_codec (c : Codec) : Except String (List (String × Int)) :=
  match c.getAttrInt "num_classes" with
  | Except.error msg => Except.error msg
  | Except.ok vs =>
    match c.getAttrInt "eos_id" with
    | Except.error msg => Except.error msg
    | Except.ok eos =>
      match c.getAttrInt "pad_id" with
      | Except.error msg => Except.error msg
      | Except.ok pad =>
        match c.getAttrInt "unk_id" with
        | Except.error msg => Except.error msg
        | Except.ok unk =>
          Except.ok [("vocab_size", vs), ("eos_id", eos), ("pad_id", pad), ("unk_id", unk)]

/-- The membership test `shift_start <= token <= shift_end` used by both
run-length functions in `run_length_encoding.py`. -/
def isShift (s e t : Int) : Bool :=
  decide (s ≤ t) && decide (t ≤ e)

/-- The scanning `while` loop of `run_length_encode_shifts`, rendered as a
state machine over the remaining token list.  The state `some (t0, acc)`
means a run of shift-range tokens is open, started by token `t0`, with
`acc = count - 1` further tokens absorbed so far; at the end of the run the
loop emits `t0 + count - 1 = t0 + acc` (runs are never capped).  Non-shift
tokens pass through unchanged. -/
def rleGo (s e : Int) : Option (Int × Int) → List Int → List Int
  | none, [] => []
  | some (t0, acc), [] => [t0 + acc]
  | none, t :: rest =>
    if isShift s e t then rleGo s e (some (t, 0)) rest
    else t :: rleGo s e none rest
  | some (t0, acc), t :: rest =>
    if isShift s e t then rleGo s e (some (t0, acc + 1)) rest
    else (t0 + acc) :: t :: rleGo s e none rest

/-- `run_length_encode_shifts(tokens, codec)`: looks up the shift token range
via `codec.event_type_range('shift')` (which may raise), then runs the
scanning loop. -/
def run_length_encode_shifts (tokens : List Int) (c : Codec) : Except String (List Int) :=
  match c.event_type_range "shift" with
  | Except.error msg => Except.error msg
  | Except.ok (s, e) => Except.ok (rleGo s e none tokens)

/-- The loop body of `run_length_decode_shifts`: a shift-range token `t`
expands to `count = t - shift_start + 1` copies of `shift_start`; other
tokens pass through unchanged. -/
def rleDecodeAux (s e : Int) : List Int → List Int
  | [] => []
  | t :: rest =>
    if isShift s e t then
      List.replicate (t - s + 1).toNat s ++ rleDecodeAux s e rest
    else
      t :: rleDecodeAux s e rest

/-- `run_length_decode_shifts(tokens, codec)`: looks up the shift token range
via `codec.event_type_range('shift')` (which may raise), then expands each
shift-range token. -/
def run_length_decode_shifts (tokens : List Int) (c : Codec) : Except String (List Int) :=
  match c.event_type_range "shift" with
  | Except.error msg => Except.error msg
  | Except.ok (s, e) => Except.ok (rleDecodeAux s e tokens)

/-- Specification predicate: every maximal run of shift-range tokens, when
re-encoded as `run_start + count - 1`, stays within the shift range, i.e.
`acc = count - 1 ≤ e - s` for every run.  The state `some acc` mirrors the
open-run state of the encoder. -/
def runsBounded (s e : Int) : Option Int → List Int → Bool
  | none, [] => true
  | some acc, [] => decide (acc ≤ e - s)
  | none, t :: rest =>
    if isShift s e t then runsBounded s e (some 0) rest
    else runsBounded s e none rest
  | some acc, t :: rest =>
    if isShift s e t then runsBounded s e (some (acc + 1)) rest
    else decide (acc ≤ e - s) && runsBounded s e none rest

/-- Specification predicate used to state the claim about `Codec`: every
registered event type has a range entry of the form `(0, mx)` with
`0 ≤ mx` (zero-based, non-empty value ranges). -/
def zeroBasedValid (c : Codec) : Bool :=
  c.event_types.all fun t =>
    match c.event_ranges.lookup t with
    | some (mn, mx) => mn == 0 && decide (0 ≤ mx)
    | none => false

/-- Modelled from the spec: the token-space layout of the run-length-encoding
test codec.  The function the repository's tests exercise is built over a
codec whose token space starts with the time-shift tokens; per the spec,
shift runs are bounded by `max_shift_steps` (default 100), and the test
fixtures place `pitch` at tokens 101-228, `velocity` at 229-356, `drum` at
357-484, `program` at 485-612 and `tie` at 613. -/
def shiftTokenRange : Int × Int := (0, 100)

/-- Modelled from the spec: token sub-range of the `velocity` state-change
type in the test codec layout (see `shiftTokenRange`). -/
def velocityTokenRange : Int × Int := (229, 356)

/-- Modelled from the spec: token sub-range of the `program` state-change
type in the test codec layout (see `shiftTokenRange`). -/
def programTokenRange : Int × Int := (485, 612)

/-- Modelled from the spec: `remove_redundant_state_changes_fn` is referenced
by the repository's tests but absent from the source tree.  Per the spec
(§4.4, with the literal test fixture of §8 as the authority): track the
last-seen value per tracked state-change type; a token falling in a tracked
type's token range that equals the currently-active value for that type is
dropped; otherwise it is emitted and becomes the active value; all other
tokens pass through unchanged, and the relative order of retained tokens is
preserved.  `tracked` lists the token sub-ranges of the tracked types and
`state` holds the active token per tracked type (initially all `none`). -/
def removeRedundantGo (tracked : List (Int × Int)) : List (Option Int) → List Int → List Int
  | _, [] => []
  | state, t :: rest =>
    match tracked.findIdx? (fun r => decide (r.1 ≤ t) && decide (t ≤ r.2)) with
    | none => t :: removeRedundantGo tracked state rest
    | some i =>
      if state.getD i none == some t then
        removeRedundantGo tracked state rest
      else
        t :: removeRedundantGo tracked (state.set i (some t)) rest

/-- Modelled from the spec: entry point of the redundant state-change
remover, starting with no active value for any tracked type. -/
def remove_redundant_state_changes (tracked : List (Int × Int)) (tokens : List Int) : List Int :=
  removeRedundantGo tracked (List.replicate tracked.length none) tokens

/-- Modelled from the spec: the first phase of `merge_run_length_encoded_targets`
(absent from the source tree; only its test exists).  Decodes one
run-length-encoded stream into `(absolute time, token)` pairs: a token in
the shift range moves the absolute time cursor to `token - shift_start`;
every other token is emitted at the current cursor.  Trailing shift tokens
therefore vanish. -/
def decodeToTimed (s e : Int) (cur : Int) : List Int → List (Int × Int)
  | [] => []
  | t :: rest =>
    if isShift s e t then decodeToTimed s e (t - s) rest
    else (cur, t) :: decodeToTimed s e cur rest

/-- Modelled from the spec: stable merge of two time-stamped streams by
ascending absolute time, left-stream tokens before right-stream tokens at
equal time.  (Right-stream elements strictly earlier than the current
left-stream head are flushed first; ties go to the left stream.) -/
def mergeTimed : List (Int × Int) → List (Int × Int) → List (Int × Int)
  | [], ys => ys
  | (tx, x) :: xs, ys =>
    ys.takeWhile (fun p => decide (p.1 < tx)) ++
      (tx, x) :: mergeTimed xs (ys.dropWhile (fun p => decide (p.1 < tx)))

/-- Modelled from the spec: re-run-length-encode a merged time-stamped stream.
`last` is the absolute time already announced; when an event's time differs
from it, a single shift token `shift_start + time` is emitted first. -/
def reEncodeTimed (s : Int) : Int → List (Int × Int) → List Int
  | _, [] => []
  | last, (t, tok) :: rest =>
    if t = last then tok :: reEncodeTimed s last rest
    else (s + t) :: tok :: reEncodeTimed s t rest

/-- Modelled from the spec: `merge_run_length_encoded_targets` combines two
independently run-length-encoded token streams by decoding each stream's
shift run-lengths into an absolute time cursor, merging non-shift tokens by
ascending absolute time (left stream first at equal times), and
re-run-length-encoding the merged stream. -/
def merge_run_length_encoded_targets (xs ys : List Int) (s e : Int) : List Int :=
  reEncodeTimed s 0 (mergeTimed (decodeToTimed s e 0 xs) (decodeToTimed s e 0 ys))

/-- The codec of `tests/test_event_codec.py` (`note`/`velocity`). -/
def noteCodec : Codec :=
  ⟨["note", "velocity"], [("note", (0, 127)), ("velocity", (0, 31))]⟩

/-- A minimal codec registering a `shift` type, so that the run-length
functions of `run_length_encoding.py` get past their
`event_type_range('shift')` lookup; the shift token range is the spec's
default `max_shift_steps = 100` layout. -/
def rleCodec : Codec :=
  ⟨["shift"], [("shift", (0, 100))]⟩

/-- A codec whose single type has a non-zero-based value range. -/
def cexCodec : Codec :=
  ⟨["a"], [("a", (5, 10))]⟩

/-- The over-long-run input of the repository's own test
`test_run_length_encode_shifts_beyond_max_length`. -/
def c2Input : List Int := List.replicate 202 1 ++ [161, 1, 1, 1]

/-! Helper lemmas about `takeWhile`/`dropWhile` and the run-length scanner. -/

theorem length_dropWhile_le' {α : Type} (p : α → Bool) : ∀ l : List α, (l.dropWhile p).length ≤ l.length := by
  intro l
  induction l with
  | nil => simp
  | cons x xs ih =>
    rw [List.dropWhile_cons]
    by_cases h : p x = true
    · simp only [h, if_true]
      exact Nat.le_succ_of_le ih
    · simp [h]

theorem mem_of_mem_dropWhile' {α : Type} {p : α → Bool} {x : α} : ∀ {l : List α}, x ∈ l.dropWhile p → x ∈ l := by
  intro l
  induction l with
  | nil => intro h; cases h
  | cons y ys ih =>
    intro h
    rw [List.dropWhile_cons] at h
    by_cases hy : p y = true
    · simp only [hy, if_true] at h
      exact List.mem_cons_of_mem y (ih h)
    · simp only [hy] at h
      simpa using h

theorem mem_of_mem_takeWhile' {α : Type} {p : α → Bool} {x : α} : ∀ {l : List α}, x ∈ l.takeWhile p → x ∈ l := by
  intro l
  induction l with
  | nil => intro h; cases h
  | cons y ys ih =>
    intro h
    rw [List.takeWhile_cons] at h
    by_cases hy : p y = true
    · simp only [hy, if_true, List.mem_cons] at h
      rcases h with h | h
      · simp [h]
      · exact List.mem_cons_of_mem y (ih h)
    · simp [hy] at h

/-- Characterization of the open-run state of the encoder: an open run started
with `t0` absorbs exactly the maximal shift-range segment of the remaining
input, emitting `t0 + acc + (segment length)`. -/
theorem rleGo_run (s e t0 : Int) : ∀ (l : List Int) (acc : Int),
    rleGo s e (some (t0, acc)) l =
      (t0 + acc + ((l.takeWhile (isShift s e)).length : Int))
        :: rleGo s e none (l.dropWhile (isShift s e)) := by
  intro l
  induction l with
  | nil => intro acc; simp [rleGo]
  | cons t rest ih =>
    intro acc
    by_cases h : isShift s e t = true
    · have e1 : rleGo s e (some (t0, acc)) (t :: rest) = rleGo s e (some (t0, acc + 1)) rest := by
        simp [rleGo, h]
      have e2 : (t :: rest).takeWhile (isShift s e) = t :: rest.takeWhile (isShift s e) := by
        simp [List.takeWhile_cons, h]
      have e3 : (t :: rest).dropWhile (isShift s e) = rest.dropWhile (isShift s e) := by
        simp [List.dropWhile_cons, h]
      rw [e1, ih (acc + 1), e2, e3, List.length_cons]
      have hAB : t0 + (acc + 1) + ((rest.takeWhile (isShift s e)).length : Int)
          = t0 + acc + (((rest.takeWhile (isShift s e)).length + 1 : Nat) : Int) := by
        push_cast
        ring
      rw [hAB]
    · have e1 : rleGo s e (some (t0, acc)) (t :: rest) = (t0 + acc) :: t :: rleGo s e none rest := by
        simp [rleGo, h]
      have e2 : (t :: rest).takeWhile (isShift s e) = [] := by
        simp [List.takeWhile_cons, h]
      have e3 : (t :: rest).dropWhile (isShift s e) = t :: rest := by
        simp [List.dropWhile_cons, h]
      rw [e1, e2, e3]
      rw [show rleGo s e none (t :: rest) = t :: rleGo s e none rest by simp [rleGo, h]]
      simp

/-- Characterization of the open-run state of the bounded-runs predicate. -/
theorem runsBounded_run (s e : Int) : ∀ (l : List Int) (acc : Int),
    runsBounded s e (some acc) l =
      (decide ((acc + ((l.takeWhile (isShift s e)).length : Int)) ≤ e - s)
        && runsBounded s e none (l.dropWhile (isShift s e))) := by
  intro l
  induction l with
  | nil => intro acc; simp [runsBounded]
  | cons t rest ih =>
    intro acc
    by_cases h : isShift s e t = true
    · have e1 : runsBounded s e (some acc) (t :: rest) = runsBounded s e (some (acc + 1)) rest := by
        simp [runsBounded, h]
      have e2 : (t :: rest).takeWhile (isShift s e) = t :: rest.takeWhile (isShift s e) := by
        simp [List.takeWhile_cons, h]
      have e3 : (t :: rest).dropWhile (isShift s e) = rest.dropWhile (isShift s e) := by
        simp [List.dropWhile_cons, h]
      rw [e1, ih (acc + 1), e2, e3, List.length_cons]
      have hAB : acc + 1 + ((rest.takeWhile (isShift s e)).length : Int)
          = acc + (((rest.takeWhile (isShift s e)).length + 1 : Nat) : Int) := by
        push_cast
        ring
      rw [hAB]
    · have e1 : runsBounded s e (some acc) (t :: rest)
          = (decide (acc ≤ e - s) && runsBounded s e none rest) := by
        simp [runsBounded, h]
      have e2 : (t :: rest).takeWhile (isShift s e) = [] := by
        simp [List.takeWhile_cons, h]
      have e3 : (t :: rest).dropWhile (isShift s e) = t :: rest := by
        simp [List.dropWhile_cons, h]
      rw [e1, e2, e3]
      rw [show runsBounded s e none (t :: rest) = runsBounded s e none rest by
        simp [runsBounded, h]]
      simp

/-- Core round-trip property of the run-length shift encoder/decoder: on a
sequence whose shift-range tokens all equal the range start `s` and whose
maximal shift runs re-encode within the range, decoding the encoding gives
the sequence back. -/
theorem rle_round_trip_core (s e : Int) : ∀ (n : Nat) (l : List Int), l.length ≤ n →
    (∀ t ∈ l, isShift s e t = true → t = s) →
    runsBounded s e none l = true →
    rleDecodeAux s e (rleGo s e none l) = l := by
  intro n
  induction n with
  | zero =>
    intro l hlen _ _
    rw [List.length_eq_zero.mp (Nat.le_zero.mp hlen)]
    simp [rleGo, rleDecodeAux]
  | succ n ih =>
    intro l hlen hcanon hbound
    match l with
    | [] => simp [rleGo, rleDecodeAux]
    | t :: rest =>
      by_cases h : isShift s e t = true
      · have ht : t = s := hcanon t (by simp) h
        rw [show rleGo s e none (t :: rest) = rleGo s e (some (t, 0)) rest by simp [rleGo, h],
          rleGo_run s e t rest 0]
        have hbound' : runsBounded s e (some 0) rest = true := by
          rw [show runsBounded s e none (t :: rest) = runsBounded s e (some 0) rest by
            simp [runsBounded, h]] at hbound
          exact hbound
        rw [runsBounded_run s e rest 0] at hbound'
        obtain ⟨hk, hbdrop⟩ := (Bool.and_eq_true _ _).mp hbound'
        have hk' : ((rest.takeWhile (isShift s e)).length : Int) ≤ e - s := by
          have := of_decide_eq_true hk
          omega
        rw [show t + 0 + ((rest.takeWhile (isShift s e)).length : Int)
            = t + ((rest.takeWhile (isShift s e)).length : Int) by ring]
        have hshift2 : isShift s e (t + ((rest.takeWhile (isShift s e)).length : Int)) = true := by
          simp only [isShift, Bool.and_eq_true, decide_eq_true_eq]
          subst ht
          constructor <;> omega
        simp only [rleDecodeAux]
        rw [if_pos hshift2]
        have hrec : rleDecodeAux s e (rleGo s e none (rest.dropWhile (isShift s e)))
            = rest.dropWhile (isShift s e) := by
          apply ih
          · have h1 := length_dropWhile_le' (isShift s e) rest
            have h2 : rest.length ≤ n := by
              simpa using Nat.le_of_succ_le_succ (by simpa using hlen)
            omega
          · intro x hx hxs
            exact hcanon x (List.mem_cons_of_mem t (mem_of_mem_dropWhile' hx)) hxs
          · exact hbdrop
        rw [hrec]
        have hcount : ((t + ((rest.takeWhile (isShift s e)).length : Int)) - s + 1).toNat
            = (rest.takeWhile (isShift s e)).length + 1 := by
          subst ht
          omega
        rw [hcount, List.replicate_succ]
        have hseg : rest.takeWhile (isShift s e)
            = List.replicate (rest.takeWhile (isShift s e)).length s := by
          rw [List.eq_replicate_iff]
          refine ⟨rfl, fun b hb => ?_⟩
          exact hcanon b (List.mem_cons_of_mem t (mem_of_mem_takeWhile' hb))
            (List.mem_takeWhile_imp hb)
        rw [ht, List.cons_append]
        congr 1
        conv_rhs => rw [← List.takeWhile_append_dropWhile (isShift s e) rest]
        congr 1
        exact hseg.symm
      · rw [show rleGo s e none (t :: rest) = t :: rleGo s e none rest by simp [rleGo, h]]
        rw [show rleDecodeAux s e (t :: rleGo s e none rest)
            = t :: rleDecodeAux s e (rleGo s e none rest) by simp [rleDecodeAux, h]]
        have hrec : rleDecodeAux s e (rleGo s e none rest) = rest := by
          apply ih
          · simpa using Nat.le_of_succ_le_succ (by simpa using hlen)
          · intro x hx hxs
            exact hcanon x (List.mem_cons_of_mem t hx) hxs
          · rw [show runsBounded s e none (t :: rest) = runsBounded s e none rest by
              simp [runsBounded, h]] at hbound
            exact hbound
        rw [hrec]

/-! Helper lemmas for the codec round-trip analysis. -/

theorem zeroBasedValid_spec {c : Codec} (hz : zeroBasedValid c = true) :
    ∀ t ∈ c.event_types, ∃ mx, 0 ≤ mx ∧ c.event_ranges.lookup t = some (0, mx) := by
  intro t ht
  have h := List.all_eq_true.mp hz t ht
  cases hl : c.event_ranges.lookup t with
  | none => rw [hl] at h; simp at h
  | some r =>
    obtain ⟨mn, mx⟩ := r
    rw [hl] at h
    simp only [Bool.and_eq_true, beq_iff_eq, decide_eq_true_eq] at h
    exact ⟨mx, h.2, by rw [h.1]⟩

theorem encodeOffset_ok (ranges : List (String × (Int × Int))) (t : String) :
    ∀ l : List String, (∀ u ∈ l, ∃ mx, 0 ≤ mx ∧ ranges.lookup u = some (0, mx)) →
      t ∈ l → ∃ o, encodeOffset ranges t l = Except.ok o ∧ 0 ≤ o := by
  intro l
  induction l with
  | nil => intro _ ht; cases ht
  | cons u rest ih =>
    intro hall ht
    by_cases hu : u = t
    · exact ⟨0, by simp [encodeOffset, hu], le_rfl⟩
    · obtain ⟨mx, hmx, hl⟩ := hall u (by simp)
      have ht' : t ∈ rest := by
        rcases List.mem_cons.mp ht with hh | hh
        · exact absurd hh.symm hu
        · exact hh
      obtain ⟨o, ho, hoo⟩ := ih (fun v hv => hall v (List.mem_cons_of_mem _ hv)) ht'
      refine ⟨(mx - 0 + 1) + o, ?_, by omega⟩
      simp [encodeOffset, hu, hl, ho]

theorem decodeLoop_roundtrip (ranges : List (String × (Int × Int))) (t : String) (v mx : Int)
    (hr : ranges.lookup t = some (0, mx)) (hv0 : 0 ≤ v) (hv : v ≤ mx) :
    ∀ l : List String, ∀ cur o : Int,
      (∀ u ∈ l, ∃ m, 0 ≤ m ∧ ranges.lookup u = some (0, m)) →
      t ∈ l →
      encodeOffset ranges t l = Except.ok o →
      decodeLoop ranges (cur + o + v) cur l = Except.ok (some ⟨t, v⟩) := by
  intro l
  induction l with
  | nil => intro cur o _ ht _; cases ht
  | cons u rest ih =>
    intro cur o hall ht henc
    by_cases hu : u = t
    · subst hu
      have ho : o = 0 := by
        simp [encodeOffset] at henc
        omega
      subst ho
      have hlt : cur + 0 + v < cur + (mx - 0 + 1) := by omega
      simp only [decodeLoop, hr]
      rw [if_pos hlt]
      have hval : cur + 0 + v - cur + 0 = v := by omega
      rw [hval]
    · obtain ⟨m, hm0, hlu⟩ := hall u (by simp)
      have ht' : t ∈ rest := by
        rcases List.mem_cons.mp ht with hh | hh
        · exact absurd hh.symm hu
        · exact hh
      obtain ⟨o', ho', ho'0⟩ :=
        encodeOffset_ok ranges t rest (fun w hw => hall w (List.mem_cons_of_mem _ hw)) ht'
      have ho : o = (m - 0 + 1) + o' := by
        simp [encodeOffset, hu, hlu, ho'] at henc
        omega
      have hge : ¬ (cur + o + v < cur + (m - 0 + 1)) := by omega
      simp only [decodeLoop, hlu]
      rw [if_neg hge]
      have harg : cur + o + v = (cur + (m - 0 + 1)) + o' + v := by omega
      rw [harg]
      exact ih (cur + (m - 0 + 1)) o' (fun w hw => hall w (List.mem_cons_of_mem _ hw)) ht' ho'

set_option maxRecDepth 40000 in
/-- C2: evaluating `run_length_encode_shifts` on the repository's own
over-long-run fixture `[1]*202 ++ [161,1,1,1]` (with the shift token range
`(0, 100)`).  The code emits a single uncapped run token `1 + 202 - 1 = 202`
and also encodes the trailing run of three shifts, producing `[202, 161, 3]`
instead of the capped `[100, 100, 2, 161]` required by the claim and by the
repository's test. -/
theorem c2_encode_uncapped_eval :
    run_length_encode_shifts c2Input rleCodec = Except.ok [202, 161, 3] ∧
    run_length_encode_shifts c2Input rleCodec ≠ Except.ok [100, 100, 2, 161] := by
  have heq : run_length_encode_shifts c2Input rleCodec = Except.ok [202, 161, 3] := rfl
  refine ⟨heq, fun h => ?_⟩
  rw [heq] at h
  exact absurd (Except.ok.inj h) (by decide)

/-- C3: evaluating `run_length_encode_shifts` on the repository's own
adjacent-distinct-tokens fixture `[1,1,1,161,162,1,1,1]` (shift token range
`(0, 100)`).  The code produces `[3, 161, 162, 3]` — it keeps (and encodes)
the trailing shift run the test expects to be dropped — instead of the
claimed `[3, 161, 162]`; and on two distinct adjacent shift-range tokens
`[1, 2]` it merges them into the single counted run `[2]`, contradicting the
claimed merge-only-identical rule. -/
theorem c3_encode_merge_eval :
    run_length_encode_shifts [1, 1, 1, 161, 162, 1, 1, 1] rleCodec = Except.ok [3, 161, 162, 3] ∧
    run_length_encode_shifts [1, 1, 1, 161, 162, 1, 1, 1] rleCodec ≠ Except.ok [3, 161, 162] ∧
    run_length_encode_shifts [1, 2] rleCodec = Except.ok [2] := by
  have heq : run_length_encode_shifts [1, 1, 1, 161, 162, 1, 1, 1] rleCodec =
      Except.ok [3, 161, 162, 3] := rfl
  refine ⟨heq, fun h => ?_, rfl⟩
  rw [heq] at h
  exact absurd (Except.ok.inj h) (by decide)

/-- C5: the redundant state-change remover (modelled from the spec, tracking
the velocity and program token ranges) maps the test fixture
`[3,525,356,161,2,525,356,161,355,394]` to `[3,525,356,161,2,161,355,394]`:
the repeated `525` (program) and `356` (velocity) announcements are dropped,
everything else passes through in order. -/
theorem c5_remove_redundant_fixture :
    remove_redundant_state_changes [velocityTokenRange, programTokenRange]
        [3, 525, 356, 161, 2, 525, 356, 161, 355, 394] =
      [3, 525, 356, 161, 2, 161, 355, 394] := rfl

/-- C6: the run-length target merger (modelled from the spec, shift token
range `(0, 100)`) maps the test fixture `[[3,161,162,5,163],[160,164,3,165,0]]`
to `[160,164,3,161,162,165,5,163]`: each stream's shift tokens become an
absolute time cursor, the non-shift tokens are merged by ascending time with
left-stream tokens first at equal times, and the result is re-encoded. -/
theorem c6_merge_fixture :
    merge_run_length_encoded_targets [3, 161, 162, 5, 163] [160, 164, 3, 165, 0] 0 100 =
      [160, 164, 3, 161, 162, 165, 5, 163] := rfl

/-- C7: for every vocabulary configuration, `vocabulary_from_codec` applied to
the codec built by `build_codec` raises `AttributeError` on `codec.eos_id`
(the `Codec` class defines `eos_token`, `pad_token` and `sos_token`, never
`eos_id`, `pad_id` or `unk_id`), so no summary containing
`vocab_size`/`eos_id`/`pad_id`/`unk_id` is ever returned. -/
theorem c7_vocabulary_attribute_error (cfg : VocabularyConfig) :
    vocabulary_from_codec (build_codec cfg) = Except.error "AttributeError: eos_id" := by
  obtain ⟨nvb, oo, it⟩ := cfg
  cases oo <;> cases it <;> rfl

/-- C8: for every vocabulary configuration, `build_codec` never registers an
event type named `shift`, so `run_length_encode_shifts` and
`run_length_decode_shifts` fail at their `event_type_range('shift')` lookup
with the unknown-event-type error, for every input token sequence. -/
theorem c8_build_codec_no_shift (cfg : VocabularyConfig) (tokens : List Int) :
    "shift" ∉ (build_codec cfg).event_types ∧
    run_length_encode_shifts tokens (build_codec cfg) = Except.error "Unknown event type: shift" ∧
    run_length_decode_shifts tokens (build_codec cfg) = Except.error "Unknown event type: shift" := by
  obtain ⟨nvb, oo, it⟩ := cfg
  cases oo <;> cases it <;> exact ⟨of_decide_eq_false rfl, rfl, rfl⟩

/-- C9: for every event type name not registered in a codec, `encode_event`
on an event of that type and `event_type_range` on that name both fail with
the unknown-event-type error (the codec itself is a pure value in this
embedding; neither call can mutate it). -/
theorem c9_unknown_event_type (c : Codec) (t : String) (h : t ∉ c.event_types) (v : Int) :
    c.encode_event ⟨t, v⟩ = Except.error ("Unknown event type: " ++ t) ∧
    c.event_type_range t = Except.error ("Unknown event type: " ++ t) := by
  constructor
  · simp [Codec.encode_event, h]
  · simp [Codec.event_type_range, h]

/-- Witness for C9 at the codec and lookup of `tests/test_event_codec.py`:
`invalid_type` is not registered in the note/velocity codec, and both calls
fail with the unknown-event-type error. -/
theorem c9_unknown_event_type_witness :
    "invalid_type" ∉ noteCodec.event_types ∧
    noteCodec.encode_event ⟨"invalid_type", 0⟩ =
      Except.error ("Unknown event type: " ++ "invalid_type") ∧
    noteCodec.event_type_range "invalid_type" =
      Except.error ("Unknown event type: " ++ "invalid_type") := by
  refine ⟨by decide, ?_⟩
  exact c9_unknown_event_type noteCodec "invalid_type" (by decide) 0

/-- C10 counterexample: `Codec` construction does not validate ranges — with
the range map `{a: (1, 0)}`, whose `min_value` exceeds its `max_value`,
`Codec.__init__` succeeds rather than failing as the claim states. -/
theorem c10_counterexample :
    (1 : Int) > 0 ∧
    Codec.make ["a"] [("a", (1, 0))] = Except.ok ⟨["a"], [("a", (1, 0))]⟩ :=
  ⟨by decide, rfl⟩

/-- C10 (amended): `EventRange` construction fails exactly when
`min_value > max_value` and succeeds otherwise, at construction time only;
`Codec` construction performs no range validation and succeeds over any
range map that covers its event types, even when a range has
`min_value > max_value`. -/
theorem c10_amended_validation (mn mx : Int) (ets : List String)
    (ranges : List (String × (Int × Int)))
    (hcov : ∀ t ∈ ets, (ranges.lookup t).isSome = true) :
    (mn > mx → ∃ msg, EventRange.make mn mx = Except.error msg) ∧
    (mn ≤ mx → EventRange.make mn mx = Except.ok ⟨mn, mx⟩) ∧
    Codec.make ets ranges = Except.ok ⟨ets, ranges⟩ := by
  refine ⟨fun h => ⟨"min_value (" ++ toString mn ++ ") must be less than or equal to max_value (" ++ toString mx ++ ")", by simp [EventRange.make, h]⟩,
    fun h => by simp [EventRange.make, not_lt.mpr h], ?_⟩
  have : ∃ total, sumSizes ranges ets = Except.ok total := by
    induction ets with
    | nil => exact ⟨0, rfl⟩
    | cons et rest ih =>
      have h1 := hcov et (by simp)
      obtain ⟨⟨rmn, rmx⟩, hr⟩ := Option.isSome_iff_exists.mp h1
      obtain ⟨total, htot⟩ := ih fun t ht => hcov t (by simp [ht])
      exact ⟨(rmx - rmn + 1) + total, by simp [sumSizes, hr, htot]⟩
  obtain ⟨total, htot⟩ := this
  simp [Codec.make, htot]

/-- Witness for C10 (amended) at a concrete valid range and a covering range
map with an invalid entry: `EventRange.make 0 5` succeeds and
`Codec.make ["a"] [("a", (1, 0))]`, i.e. a codec over an invalid range,
also succeeds. -/
theorem c10_amended_validation_witness :
    (∀ t ∈ ["a"], (([("a", ((1 : Int), (0 : Int)))].lookup t).isSome = true)) ∧
    ((0 : Int) ≤ 5 → EventRange.make 0 5 = Except.ok ⟨0, 5⟩) ∧
    Codec.make ["a"] [("a", (1, 0))] = Except.ok ⟨["a"], [("a", (1, 0))]⟩ := by
  refine ⟨by decide, ?_, ?_⟩
  · exact (c10_amended_validation 0 5 ["a"] [("a", (1, 0))] (by decide)).2.1
  · exact (c10_amended_validation 0 5 ["a"] [("a", (1, 0))] (by decide)).2.2

/-- C1 counterexample: with the codec `{a: (5, 10)}` — a registered type
whose `min_value` is 5 — the in-range value 5 does not round-trip:
`encode_event(Event(a, 5))` yields token 8, which decodes to `Event(a, 10)`.
`encode_event` adds the raw value to the type's token offset while
`decode_event` adds `min_value` back, so the composition returns
`Event(t, v + min_value)`, not `Event(t, v)`. -/
theorem c1_counterexample :
    (5 : Int) ≤ 5 ∧ (5 : Int) ≤ 10 ∧
    cexCodec.event_ranges.lookup "a" = some (5, 10) ∧
    cexCodec.encode_event ⟨"a", 5⟩ = Except.ok 8 ∧
    cexCodec.decode_event 8 = Except.ok (some ⟨"a", 10⟩) ∧
    cexCodec.decode_event 8 ≠ Except.ok (some ⟨"a", 5⟩) := by
  have h0 : cexCodec.decode_event 8 = Except.ok (some (Event.mk "a" 10)) := rfl
  refine ⟨by decide, by decide, rfl, rfl, h0, fun h => ?_⟩
  rw [h0] at h
  exact absurd (Option.some.inj (Except.ok.inj h)) (by decide)

/-- C1 (amended): for every codec all of whose registered types have
zero-based, non-empty value ranges (`min_value = 0 ≤ max_value`), decoding
an encoded in-range event returns the event unchanged, and no two distinct
in-range `(type, value)` pairs encode to the same token. -/
theorem c1_amended_round_trip_injective (c : Codec) (hz : zeroBasedValid c = true) :
    (∀ t ∈ c.event_types, ∀ v mn mx : Int,
        c.event_ranges.lookup t = some (mn, mx) → mn ≤ v → v ≤ mx →
        Except.bind (c.encode_event ⟨t, v⟩) c.decode_event = Except.ok (some ⟨t, v⟩)) ∧
    (∀ t₁ ∈ c.event_types, ∀ t₂ ∈ c.event_types, ∀ v₁ v₂ mn₁ mx₁ mn₂ mx₂ : Int,
        c.event_ranges.lookup t₁ = some (mn₁, mx₁) →
        c.event_ranges.lookup t₂ = some (mn₂, mx₂) →
        mn₁ ≤ v₁ → v₁ ≤ mx₁ → mn₂ ≤ v₂ → v₂ ≤ mx₂ →
        c.encode_event ⟨t₁, v₁⟩ = c.encode_event ⟨t₂, v₂⟩ →
        t₁ = t₂ ∧ v₁ = v₂) := by
  have hspec := zeroBasedValid_spec hz
  have key : ∀ t ∈ c.event_types, ∀ v mn mx : Int,
      c.event_ranges.lookup t = some (mn, mx) → mn ≤ v → v ≤ mx →
      Except.bind (c.encode_event ⟨t, v⟩) c.decode_event = Except.ok (some ⟨t, v⟩) := by
    intro t ht v mn mx hr hv1 hv2
    obtain ⟨mx', hmx', hr'⟩ := hspec t ht
    have hpair : (mn, mx) = ((0 : Int), mx') := by
      rw [hr] at hr'
      exact Option.some.inj hr'
    have hmn : mn = 0 := congrArg Prod.fst hpair
    have hmxe : mx = mx' := congrArg Prod.snd hpair
    subst hmn hmxe
    obtain ⟨o, ho, ho0⟩ := encodeOffset_ok c.event_ranges t c.event_types hspec ht
    have henc : c.encode_event ⟨t, v⟩ = Except.ok (3 + o + v) := by
      simp [Codec.encode_event, ht, ho]
    have hd : c.decode_event (3 + o + v) = Except.ok (some ⟨t, v⟩) := by
      have hnotlt : ¬ (3 + o + v < 3) := by omega
      simp only [Codec.decode_event]
      rw [if_neg hnotlt]
      exact decodeLoop_roundtrip c.event_ranges t v mx hr hv1 hv2 c.event_types 3 o hspec ht ho
    rw [henc]
    simp only [Except.bind]
    exact hd
  refine ⟨key, ?_⟩
  intro t₁ h₁ t₂ h₂ v₁ v₂ mn₁ mx₁ mn₂ mx₂ hr₁ hr₂ a₁ a₂ b₁ b₂ heq
  have k₁ := key t₁ h₁ v₁ mn₁ mx₁ hr₁ a₁ a₂
  have k₂ := key t₂ h₂ v₂ mn₂ mx₂ hr₂ b₁ b₂
  rw [heq, k₂] at k₁
  have hev := Option.some.inj (Except.ok.inj k₁)
  exact ⟨(congrArg Event.type hev).symm, (congrArg Event.value hev).symm⟩

/-- Witness for C1 (amended) at the note/velocity codec of
`tests/test_event_codec.py`: the codec is zero-based and `Event(note, 60)`
round-trips through `encode_event` and `decode_event`. -/
theorem c1_amended_witness :
    zeroBasedValid noteCodec = true ∧
    Except.bind (noteCodec.encode_event ⟨"note", 60⟩) noteCodec.decode_event =
      Except.ok (some ⟨"note", 60⟩) :=
  ⟨by decide,
    (c1_amended_round_trip_injective noteCodec (by decide)).1 "note" (by decide)
      60 0 127 rfl (by decide) (by decide)⟩

/-- C4: for every codec whose `event_type_range('shift')` lookup succeeds
with range `(s, e)`, and every token sequence whose shift-range tokens all
equal the canonical range start `s` and whose maximal shift runs re-encode
within the representable range, `run_length_decode_shifts` inverts
`run_length_encode_shifts`; non-shift tokens pass through both directions
unchanged and in order (they are part of the recovered sequence). -/
theorem c4_round_trip (c : Codec) (s e : Int)
    (hc : c.event_type_range "shift" = Except.ok (s, e)) (seq : List Int)
    (hcanon : ∀ t ∈ seq, isShift s e t = true → t = s)
    (hbound : runsBounded s e none seq = true) :
    Except.bind (run_length_encode_shifts seq c) (fun enc => run_length_decode_shifts enc c) =
      Except.ok seq := by
  simp only [run_length_encode_shifts, run_length_decode_shifts, hc, Except.bind]
  rw [rle_round_trip_core s e seq.length seq le_rfl hcanon hbound]

/-- Witness for C4 at the shift codec (`shift` range `(0, 100)`) and the
sequence `[0, 0, 161, 0]`: all shift tokens are the canonical `0`, the runs
are within range, and decode ∘ encode gives the sequence back. -/
theorem c4_round_trip_witness :
    rleCodec.event_type_range "shift" = Except.ok (0, 100) ∧
    (∀ t ∈ ([0, 0, 161, 0] : List Int), isShift 0 100 t = true → t = 0) ∧
    runsBounded 0 100 none [0, 0, 161, 0] = true ∧
    Except.bind (run_length_encode_shifts [0, 0, 161, 0] rleCodec)
        (fun enc => run_length_decode_shifts enc rleCodec) =
      Except.ok [0, 0, 161, 0] :=
  ⟨rfl, by decide, by decide,
    c4_round_trip rleCodec 0 100 rfl [0, 0, 161, 0] (by decide) (by decide)⟩

end NeoMT3
